import Mathlib

/-!
Verification of the translation cache and batch-translation fan-out of the
langchaingo-demo repository (pkg/translator/translator.go, pkg/translator/tool.go).

The external chat-completion call is abstracted as an oracle
`LLM : String → String → String → Except String String` (text, input language,
output language).  Time is modelled as a `Nat` instant (nanoseconds) passed
explicitly; the Go map is modelled as an association list whose `erase`
removes every binding of a key, so the usual map algebra holds without a
no-duplicate invariant.  Observable effects (cache reads/writes, external
calls, semaphore slot acquisition, result-slot writes) are recorded as
explicit event traces.
-/

/-- Go constant `cacheDuration = 24 * time.Hour` in nanoseconds. -/
def cacheDuration : Nat := 24 * 60 * 60 * 1000000000

/-- Go constant `maxConcurrency = 2`. -/
def maxConcurrency : Nat := 2

/-- Go constant `batchSize = 3`. -/
def batchSize : Nat := 3

/-- Go struct `cacheEntry { result string; timestamp time.Time }`. -/
structure cacheEntry where
  result : String
  timestamp : Nat
deriving DecidableEq, Repr

/-- Go struct `TranslationCache { cache map[string]cacheEntry }`.
The map is modelled as an association list. -/
structure TranslationCache where
  cache : List (String × cacheEntry)
deriving DecidableEq, Repr

/-- Go `getCacheKey`: `fmt.Sprintf("%s:%s:%s", text, inputLang, outputLang)`. -/
def getCacheKey (text inputLang outputLang : String) : String :=
  text ++ ":" ++ inputLang ++ ":" ++ outputLang

/-- Map lookup on the underlying association list: first binding of the key. -/
def lookupL : List (String × cacheEntry) → String → Option cacheEntry
  | [], _ => none
  | (k', e) :: rest, k => if k = k' then some e else lookupL rest k

/-- Remove every binding of a key from the underlying association list. -/
def eraseL : List (String × cacheEntry) → String → List (String × cacheEntry)
  | [], _ => []
  | (k', e) :: rest, k => if k' = k then eraseL rest k else (k', e) :: eraseL rest k

/-- Map lookup: the binding of the key, if any. -/
def lookupKey (c : TranslationCache) (key : String) : Option cacheEntry :=
  lookupL c.cache key

/-- Go `delete(c.cache, key)`: remove the binding of the key. -/
def eraseKey (c : TranslationCache) (key : String) : TranslationCache :=
  ⟨eraseL c.cache key⟩

/-- Go `c.cache[key] = e`: insert, overwriting any previous binding. -/
def insertKey (c : TranslationCache) (key : String) (e : cacheEntry) : TranslationCache :=
  ⟨(key, e) :: (eraseKey c key).cache⟩

/-- Go `TranslationCache.Get` (translator.go lines 46-59): on a fresh hit return
the entry; on an expired hit delete the entry and report not-found; on a miss
report not-found.  Returns the (result, found) pair and the cache afterwards. -/
def TranslationCache.Get (c : TranslationCache) (now : Nat)
    (text inputLang outputLang : String) : (String × Bool) × TranslationCache :=
  let key := getCacheKey text inputLang outputLang
  match lookupKey c key with
  | some entry =>
      if now - entry.timestamp < cacheDuration then ((entry.result, true), c)
      else (("", false), eraseKey c key)
  | none => (("", false), c)

/-- Go `TranslationCache.Set` (translator.go lines 62-71): insert or overwrite
the entry with the current timestamp. -/
def TranslationCache.Set (c : TranslationCache) (now : Nat)
    (text inputLang outputLang result : String) : TranslationCache :=
  insertKey c (getCacheKey text inputLang outputLang) ⟨result, now⟩

/-- The external chat-completion call, abstracted: text, input language, output
language to either a translation or an error message. -/
def LLM : Type := String → String → String → Except String String

/-- Observable effects of the single-item `Translate`. -/
inductive TEvent where
  | cacheGet : TEvent
  | cacheSet : TEvent
  | llmCall : TEvent
deriving DecidableEq, Repr

/-- Result of `Translate`: outcome, cache afterwards, event trace. -/
structure TOut where
  result : Except String String
  cache : TranslationCache
  events : List TEvent
deriving Repr

/-- Go `Translate` (translator.go lines 74-123): validate the three inputs,
check the cache, otherwise call the external oracle and cache a success. -/
def Translate (llm : LLM) (now : Nat) (c : TranslationCache)
    (text inputLanguage outputLanguage : String) : TOut :=
  if text = "" then ⟨Except.error "empty text input", c, []⟩
  else if inputLanguage = "" then ⟨Except.error "empty input language", c, []⟩
  else if outputLanguage = "" then ⟨Except.error "empty output language", c, []⟩
  else
    let g := c.Get now text inputLanguage outputLanguage
    if g.1.2 then ⟨Except.ok g.1.1, g.2, [TEvent.cacheGet]⟩
    else
      match llm text inputLanguage outputLanguage with
      | Except.error e =>
          ⟨Except.error ("translation failed: " ++ e), g.2,
           [TEvent.cacheGet, TEvent.llmCall]⟩
      | Except.ok out =>
          ⟨Except.ok out, TranslationCache.Set g.2 now text inputLanguage outputLanguage out,
           [TEvent.cacheGet, TEvent.llmCall, TEvent.cacheSet]⟩

/-- Observable effects of a batch worker goroutine, tagged with the worker's
original item index: semaphore slot acquisition and release, the worker's
direct cache check (with its hit flag), the write into its result slot, and
the events of its inner `Translate` call. -/
inductive Ev where
  | acquire : Nat → Ev
  | release : Nat → Ev
  | wGet : Nat → Bool → Ev
  | write : Nat → Ev
  | sub : Nat → TEvent → Ev
deriving DecidableEq, Repr

/-- Outcome of one batch worker: cache afterwards, the value written to
`results[index]` (if any), the message sent to the error channel (if any),
and the event trace. -/
structure WorkerOut where
  cache : TranslationCache
  write : Option String
  errMsg : Option String
  events : List Ev
deriving Repr

/-- The body of the worker goroutine in `TranslateBatch` (translator.go lines
148-174), in source order: acquire a semaphore slot, check the cache (on a hit
write the cached value and finish), otherwise call `Translate`; a failure is
reported to the error channel tagged with the item's original index. -/
def workerRun (llm : LLM) (now : Nat) (inputLanguage outputLanguage : String)
    (c : TranslationCache) (index : Nat) (text : String) : WorkerOut :=
  let g := c.Get now text inputLanguage outputLanguage
  if g.1.2 then
    ⟨g.2, some g.1.1, none,
     [Ev.acquire index, Ev.wGet index true, Ev.write index, Ev.release index]⟩
  else
    let t := Translate llm now g.2 text inputLanguage outputLanguage
    match t.result with
    | Except.error e =>
        ⟨t.cache, none,
         some ("failed to translate text at index " ++ toString index ++ ": " ++ e),
         [Ev.acquire index, Ev.wGet index false] ++ t.events.map (Ev.sub index)
           ++ [Ev.release index]⟩
    | Except.ok r =>
        ⟨t.cache, some r, none,
         [Ev.acquire index, Ev.wGet index false] ++ t.events.map (Ev.sub index)
           ++ [Ev.write index, Ev.release index]⟩

/-- Outcome of one chunk: cache afterwards, the (index, value) result-slot
writes, the error-channel contents in arrival order, the event trace. -/
structure ChunkOut where
  cache : TranslationCache
  writes : List (Nat × String)
  errs : List String
  events : List Ev
deriving Repr

/-- Run the workers of one chunk in the given completion order, threading the
shared cache through them. -/
def runItems (llm : LLM) (now : Nat) (inputLanguage outputLanguage : String) :
    TranslationCache → List (Nat × String) → ChunkOut
  | c, [] => ⟨c, [], [], []⟩
  | c, (i, t) :: rest =>
      let w := workerRun llm now inputLanguage outputLanguage c i t
      let r := runItems llm now inputLanguage outputLanguage w.cache rest
      ⟨r.cache,
       (match w.write with | some v => [(i, v)] | none => []) ++ r.writes,
       (match w.errMsg with | some e => [e] | none => []) ++ r.errs,
       w.events ++ r.events⟩

/-- The chunking loop bounds of `TranslateBatch` (translator.go lines 139-145):
contiguous chunks of `batchSize` items, each item paired with its original
index. -/
def chunksOf : List (Nat × String) → List (List (Nat × String))
  | [] => []
  | [a] => [[a]]
  | [a, b] => [[a, b]]
  | a :: b :: c :: rest => [a, b, c] :: chunksOf rest

/-- A completion order for the workers of each chunk: chunk number and chunk
items to the order in which the workers run.  The physical program resolves
this nondeterministically; theorems quantify over all permutations. -/
def Sched : Type := Nat → List (Nat × String) → List (Nat × String)

/-- Outcome of a whole batch: either the result list or the first error, plus
the cache afterwards and the event trace. -/
structure BatchOut where
  result : Except String (List String)
  cache : TranslationCache
  events : List Ev
deriving Repr

/-- The chunk loop of `TranslateBatch` (translator.go lines 139-193): run the
chunk's workers, then inspect the error channel non-blockingly; on any error
abort the whole batch with a wrapped error, otherwise continue with the next
chunk. -/
def runChunks (llm : LLM) (now : Nat) (inputLanguage outputLanguage : String)
    (sched : Sched) :
    Nat → TranslationCache → List String → List (List (Nat × String)) → BatchOut
  | _, c, res, [] => ⟨Except.ok res, c, []⟩
  | k, c, res, ch :: rest =>
      let o := runItems llm now inputLanguage outputLanguage c (sched k ch)
      let res' := o.writes.foldl (fun r p => r.set p.1 p.2) res
      match o.errs with
      | e :: _ => ⟨Except.error ("batch translation error: " ++ e), o.cache, o.events⟩
      | [] =>
          let r := runChunks llm now inputLanguage outputLanguage sched (k + 1)
                     o.cache res' rest
          ⟨r.result, r.cache, o.events ++ r.events⟩

/-- Go `TranslateBatch` (translator.go lines 126-196) parametrised by the
workers' completion order within each chunk: validate non-emptiness, pre-size
the result list, then run the chunks in sequence. -/
def TranslateBatchWith (sched : Sched) (llm : LLM) (now : Nat)
    (c : TranslationCache) (texts : List String)
    (inputLanguage outputLanguage : String) : BatchOut :=
  if texts = [] then ⟨Except.error "empty texts input", c, []⟩
  else runChunks llm now inputLanguage outputLanguage sched 0 c
         (List.replicate texts.length "") (chunksOf texts.enum)

/-- The in-order schedule: workers complete in item order. -/
def inOrder : Sched := fun _ l => l

/-- `TranslateBatch` under the in-order schedule. -/
def TranslateBatch (llm : LLM) (now : Nat) (c : TranslationCache)
    (texts : List String) (inputLanguage outputLanguage : String) : BatchOut :=
  TranslateBatchWith inOrder llm now c texts inputLanguage outputLanguage

/-- A cache state agrees with the oracle for a language pair: every entry
reachable under a key of the pair stores the oracle's successful answer for
its text. -/
def consistent (llm : LLM) (il ol : String) (c : TranslationCache) : Prop :=
  ∀ t e, lookupKey c (getCacheKey t il ol) = some e → llm t il ol = Except.ok e.result

/-- A concrete always-successful oracle, for witnesses. -/
def llmOK : LLM := fun t _ _ => Except.ok ("T" ++ t)

/-- A concrete oracle failing exactly on the text "d", for witnesses. -/
def llmFail : LLM := fun t _ _ =>
  if t = "d" then Except.error "boom" else Except.ok ("T" ++ t)

/-- The fields the tool wrapper unmarshals from a JSON input (tool.go lines
40-44); an absent field decodes to the empty string, as in Go. -/
structure ToolParams where
  text : String
  sourceLang : String
  targetLang : String
deriving DecidableEq, Repr

/-- Drop the characters satisfying `p` from both ends of a character list. -/
def trimEnds (p : Char → Bool) (l : List Char) : List Char :=
  ((l.dropWhile p).reverse.dropWhile p).reverse

/-- Go `strings.TrimSpace`. -/
def goTrimSpace (s : String) : String :=
  ⟨trimEnds (fun ch => ch.isWhitespace) s.data⟩

/-- Go `strings.Trim(s, "'\"")`: strip surrounding single and double quotes. -/
def goTrimQuotes (s : String) : String :=
  ⟨trimEnds (fun ch => ch = '\'' || ch = '"') s.data⟩

/-- Go `strings.HasPrefix(s, "\x7b")`: does the string start with a left
brace? -/
def startsWithBrace (s : String) : Bool :=
  match s.data with
  | ch :: _ => ch = Char.ofNat 123
  | [] => false

/-- The input handling of `Translator.Call` (tool.go lines 36-66), with the
JSON decoder abstracted as `unmarshal` (returning `none` exactly when
`json.Unmarshal` errors): attempt JSON decoding only when the trimmed input
starts with a brace; if no text was obtained, fall back to the raw input
stripped of quotes and whitespace with default languages, then default each
still-empty language field. -/
def resolveInput (unmarshal : String → Option ToolParams) (input : String) : ToolParams :=
  let p0 : ToolParams :=
    if startsWithBrace (goTrimSpace input) then
      match unmarshal input with
      | some params => params
      | none => ⟨"", "", ""⟩
    else ⟨"", "", ""⟩
  let p1 : ToolParams :=
    if p0.text = "" then ⟨goTrimSpace (goTrimQuotes input), "English", "Chinese"⟩
    else p0
  let p2 : ToolParams :=
    if p1.sourceLang = "" then ⟨p1.text, "English", p1.targetLang⟩ else p1
  if p2.targetLang = "" then ⟨p2.text, p2.sourceLang, "Chinese"⟩ else p2

/-- `Translator.Call` (tool.go lines 29-84): resolve the input, then delegate
to `Translate`, wrapping a failure. -/
def ToolCall (unmarshal : String → Option ToolParams) (llm : LLM) (now : Nat)
    (c : TranslationCache) (input : String) : TOut :=
  let p := resolveInput unmarshal input
  let t := Translate llm now c p.text p.sourceLang p.targetLang
  match t.result with
  | Except.error e => ⟨Except.error ("translation failed: " ++ e), t.cache, t.events⟩
  | Except.ok r => ⟨Except.ok r, t.cache, t.events⟩

/-- Relation between a result-slot write and the chunk item that produced it:
same original index, and the value is the oracle's answer for the item's
text. -/
def WriteRel (llm : LLM) (il ol : String) (q p : Nat × String) : Prop :=
  q.1 = p.1 ∧ llm p.2 il ol = Except.ok q.2

/-- `chunksOf` is the `take batchSize` / `drop batchSize` loop of the source. -/
theorem chunksOf_cons (x : Nat × String) (xs : List (Nat × String)) :
    chunksOf (x :: xs) = (x :: xs).take batchSize :: chunksOf ((x :: xs).drop batchSize) := by
  match xs with
  | [] => rfl
  | [b] => rfl
  | b :: c :: rest => rfl

theorem lookupL_erase (l : List (String × cacheEntry)) (k k' : String) :
    lookupL (eraseL l k) k' = if k' = k then none else lookupL l k' := by
  induction l with
  | nil => simp [eraseL, lookupL]
  | cons p rest ih =>
      obtain ⟨pk, pe⟩ := p
      by_cases hpk : pk = k
      · rw [eraseL, if_pos hpk, ih, lookupL]
        by_cases hk : k' = k
        · simp [hk]
        · rw [if_neg hk, if_neg hk, if_neg (hpk ▸ fun h => hk h)]
      · rw [eraseL, if_neg hpk, lookupL, lookupL]
        by_cases hpk' : k' = pk
        · rw [if_pos hpk', if_pos hpk', if_neg (fun h => hpk ((hpk'.symm.trans h) ▸ rfl))]
        · rw [if_neg hpk', if_neg hpk', ih]

theorem lookupKey_erase (c : TranslationCache) (k k' : String) :
    lookupKey (eraseKey c k) k' = if k' = k then none else lookupKey c k' :=
  lookupL_erase c.cache k k'

theorem lookupKey_insert (c : TranslationCache) (k k' : String) (e : cacheEntry) :
    lookupKey (insertKey c k e) k' = if k' = k then some e else lookupKey c k' := by
  by_cases h : k' = k
  · simp [lookupKey, insertKey, lookupL, h]
  · rw [lookupKey, insertKey]
    show lookupL ((k, e) :: (eraseKey c k).cache) k' = _
    rw [lookupL, if_neg h, if_neg h]
    have := lookupKey_erase c k k'
    rw [if_neg h] at this
    exact this

theorem lookupKey_set (c : TranslationCache) (now : Nat) (t il ol v k' : String) :
    lookupKey (c.Set now t il ol v) k'
      = if k' = getCacheKey t il ol then some ⟨v, now⟩ else lookupKey c k' := by
  simp [TranslationCache.Set, lookupKey_insert]

/-- The character-list form of a cache key. -/
theorem getCacheKey_data (t il ol : String) :
    (getCacheKey t il ol).data = t.data ++ ':' :: (il.data ++ ':' :: ol.data) := by
  simp [getCacheKey, String.data_append]

/-- Splitting at a separator absent from both left parts is unique. -/
theorem sep_split {a b c d : List Char} (ha : ':' ∉ a) (hc : ':' ∉ c)
    (h : a ++ ':' :: b = c ++ ':' :: d) : a = c ∧ b = d := by
  induction a generalizing c with
  | nil =>
      cases c with
      | nil => simpa using h
      | cons y ys =>
          simp at h
          exact absurd (h.1 ▸ List.mem_cons_self y ys) hc
  | cons x xs ih =>
      cases c with
      | nil =>
          simp at h
          exact absurd (h.1 ▸ List.mem_cons_self x xs) ha
      | cons y ys =>
          simp at h
          obtain ⟨hxy, hrest⟩ := h
          have := ih (fun hm => ha (List.mem_cons_of_mem x hm))
            (fun hm => hc (List.mem_cons_of_mem y hm)) hrest
          exact ⟨by simp [hxy, this.1], this.2⟩

/-- C4, counterexample: the claim quantifies over triples for which no `Set`
has occurred, but cache keys of distinct triples can collide on separator
placement.  Starting from the empty cache, the only `Set` ever performed is
for the triple ("a:b", "en", "zh"); a `Get` for the distinct triple
("a", "b:en", "zh") — for which no `Set` occurred — nevertheless reports
found = true. -/
theorem cache_unset_triple_found_counterexample :
    (("a", "b:en", "zh") ≠ ("a:b", "en", "zh")) ∧
    ((TranslationCache.Set ⟨[]⟩ 0 "a:b" "en" "zh" "v").Get 0 "a" "b:en" "zh").1
      = ("v", true) := by decide

/-- C4 (amended): `Set` for a triple followed by `Get` for the same triple
within the TTL returns the stored value with found = true; and `Get` reports
found = false for every triple whose cache key is absent from the cache — a
triple for which no `Set` occurred can still be found when a `Set` for a
colliding triple (separator placement) occurred. -/
theorem cache_set_get_and_absent (c : TranslationCache) (now now' : Nat)
    (t il ol v : String) (h : now' - now < cacheDuration) :
    ((c.Set now t il ol v).Get now' t il ol).1 = (v, true)
    ∧ ∀ c' : TranslationCache, lookupKey c' (getCacheKey t il ol) = none →
        (c'.Get now' t il ol).1 = ("", false) := by
  refine ⟨?_, fun c' hnone => ?_⟩
  · have hl : lookupKey (c.Set now t il ol v) (getCacheKey t il ol) = some ⟨v, now⟩ := by
      rw [lookupKey_set]; simp
    simp [TranslationCache.Get, hl, h]
  · simp [TranslationCache.Get, hnone]

/-- C4 witness: the amended theorem applied to a concrete `Set`/`Get` pair and
to the concrete empty cache as an absent key. -/
theorem cache_set_get_and_absent_witness :
    ((TranslationCache.Set ⟨[]⟩ 5 "hi" "en" "zh" "你好").Get 6 "hi" "en" "zh").1
      = ("你好", true)
    ∧ (TranslationCache.Get ⟨[]⟩ 6 "hi" "en" "zh").1 = ("", false) :=
  ⟨(cache_set_get_and_absent ⟨[]⟩ 5 6 "hi" "en" "zh" "你好" (by decide)).1,
   (cache_set_get_and_absent ⟨[]⟩ 5 6 "hi" "en" "zh" "你好" (by decide)).2 ⟨[]⟩
     (by decide)⟩

/-- C5: a `Get` performed once `now - createdAt ≥ TTL` reports found = false
and deletes the entry, after which the key is absent; and a `Get` on an absent
key leaves the cache unchanged. -/
theorem cache_get_expired_deletes (c : TranslationCache) (now : Nat)
    (t il ol : String) :
    (∀ e, lookupKey c (getCacheKey t il ol) = some e →
        cacheDuration ≤ now - e.timestamp →
        c.Get now t il ol = (("", false), eraseKey c (getCacheKey t il ol))
        ∧ lookupKey (eraseKey c (getCacheKey t il ol)) (getCacheKey t il ol) = none)
    ∧ (lookupKey c (getCacheKey t il ol) = none →
        c.Get now t il ol = (("", false), c)) := by
  refine ⟨fun e he httl => ⟨?_, ?_⟩, fun hnone => ?_⟩
  · simp [TranslationCache.Get, he, Nat.not_lt.mpr httl]
  · rw [lookupKey_erase]; simp
  · simp [TranslationCache.Get, hnone]

/-- C5 witness: a concrete expired entry is deleted and reported not-found,
and a concrete `Get` on an absent key leaves the cache unchanged. -/
theorem cache_get_expired_deletes_witness :
    (TranslationCache.Get ⟨[(getCacheKey "a" "en" "zh", ⟨"v", 0⟩)]⟩ cacheDuration
        "a" "en" "zh"
      = (("", false), eraseKey ⟨[(getCacheKey "a" "en" "zh", ⟨"v", 0⟩)]⟩
          (getCacheKey "a" "en" "zh"))
    ∧ lookupKey (eraseKey ⟨[(getCacheKey "a" "en" "zh", ⟨"v", 0⟩)]⟩
        (getCacheKey "a" "en" "zh")) (getCacheKey "a" "en" "zh") = none)
    ∧ TranslationCache.Get ⟨[]⟩ 0 "b" "en" "zh" = (("", false), ⟨[]⟩) :=
  ⟨(cache_get_expired_deletes ⟨[(getCacheKey "a" "en" "zh", ⟨"v", 0⟩)]⟩ cacheDuration
      "a" "en" "zh").1 ⟨"v", 0⟩ (by decide) (by decide),
   (cache_get_expired_deletes ⟨[]⟩ 0 "b" "en" "zh").2 (by decide)⟩

/-- Cache keys determine all three fields when no field contains the
separator. -/
theorem getCacheKey_fields {t1 il1 ol1 t2 il2 ol2 : String}
    (ht1 : ':' ∉ t1.data) (hil1 : ':' ∉ il1.data)
    (ht2 : ':' ∉ t2.data) (hil2 : ':' ∉ il2.data)
    (h : getCacheKey t1 il1 ol1 = getCacheKey t2 il2 ol2) :
    t1 = t2 ∧ il1 = il2 ∧ ol1 = ol2 := by
  have hd : t1.data ++ ':' :: (il1.data ++ ':' :: ol1.data)
      = t2.data ++ ':' :: (il2.data ++ ':' :: ol2.data) := by
    rw [← getCacheKey_data, ← getCacheKey_data, h]
  obtain ⟨h1, h2⟩ := sep_split ht1 ht2 hd
  obtain ⟨h3, h4⟩ := sep_split hil1 hil2 h2
  exact ⟨String.ext h1, String.ext h3, String.ext h4⟩

/-- C8: the cache-key function is injective on triples in which no field
contains the separator character: two distinct such triples produce distinct
cache keys. -/
theorem getCacheKey_injective (t1 il1 ol1 t2 il2 ol2 : String)
    (ht1 : ':' ∉ t1.data) (hil1 : ':' ∉ il1.data) (_hol1 : ':' ∉ ol1.data)
    (ht2 : ':' ∉ t2.data) (hil2 : ':' ∉ il2.data) (_hol2 : ':' ∉ ol2.data)
    (hne : (t1, il1, ol1) ≠ (t2, il2, ol2)) :
    getCacheKey t1 il1 ol1 ≠ getCacheKey t2 il2 ol2 := by
  intro h
  obtain ⟨h1, h2, h3⟩ := getCacheKey_fields ht1 hil1 ht2 hil2 h
  exact hne (by rw [h1, h2, h3])

/-- C8 witness: two concrete separator-free triples differing in the text
field produce distinct keys. -/
theorem getCacheKey_injective_witness :
    getCacheKey "a" "en" "zh" ≠ getCacheKey "b" "en" "zh" :=
  getCacheKey_injective "a" "en" "zh" "b" "en" "zh" (by decide) (by decide)
    (by decide) (by decide) (by decide) (by decide) (by decide)

/-- C6: the single-item `Translate` fails immediately on empty text, empty
input language, or empty output language, with a distinct descriptive error
for each of the three cases; in each case the cache is unchanged and the
event trace is empty, so the cache is neither read nor written and the
external call is never made. -/
theorem translate_validation (llm : LLM) (now : Nat) (c : TranslationCache)
    (t il ol : String) :
    (t = "" →
      Translate llm now c t il ol = ⟨Except.error "empty text input", c, []⟩)
    ∧ (t ≠ "" → il = "" →
      Translate llm now c t il ol = ⟨Except.error "empty input language", c, []⟩)
    ∧ (t ≠ "" → il ≠ "" → ol = "" →
      Translate llm now c t il ol = ⟨Except.error "empty output language", c, []⟩)
    ∧ ("empty text input" ≠ "empty input language"
       ∧ "empty text input" ≠ "empty output language"
       ∧ "empty input language" ≠ "empty output language") := by
  refine ⟨fun h1 => ?_, fun h1 h2 => ?_, fun h1 h2 h3 => ?_, by decide⟩
  · simp [Translate, h1]
  · simp [Translate, h1, h2]
  · simp [Translate, h1, h2, h3]

/-- C6 witness: the three validation branches at concrete inputs. -/
theorem translate_validation_witness :
    (Translate (fun _ _ _ => Except.ok "x") 0 ⟨[]⟩ "" "en" "zh"
      = ⟨Except.error "empty text input", ⟨[]⟩, []⟩)
    ∧ (Translate (fun _ _ _ => Except.ok "x") 0 ⟨[]⟩ "hi" "" "zh"
      = ⟨Except.error "empty input language", ⟨[]⟩, []⟩)
    ∧ (Translate (fun _ _ _ => Except.ok "x") 0 ⟨[]⟩ "hi" "en" ""
      = ⟨Except.error "empty output language", ⟨[]⟩, []⟩) :=
  ⟨(translate_validation (fun _ _ _ => Except.ok "x") 0 ⟨[]⟩ "" "en" "zh").1 rfl,
   (translate_validation (fun _ _ _ => Except.ok "x") 0 ⟨[]⟩ "hi" "" "zh").2.1
     (by decide) rfl,
   (translate_validation (fun _ _ _ => Except.ok "x") 0 ⟨[]⟩ "hi" "en" "").2.2.1
     (by decide) (by decide) rfl⟩

/-- C7: `TranslateBatch` on the empty input list fails with the empty-input
error; the cache is unchanged and the event trace is empty, so no chunking,
worker dispatch, cache access or external call has happened. -/
theorem translateBatch_empty_input (llm : LLM) (now : Nat) (c : TranslationCache)
    (il ol : String) :
    TranslateBatch llm now c [] il ol = ⟨Except.error "empty texts input", c, []⟩ :=
  rfl

/-- C10: whenever the tool wrapper's input does not reach a successful JSON
decode with a non-empty text field — the trimmed input does not start with a
brace, or decoding fails, or the decoded text field is empty — the wrapper
uses the raw input stripped of surrounding quotes then whitespace as the text
and forces the default languages English and Chinese, discarding any decoded
language fields. -/
theorem resolveInput_fallback (unmarshal : String → Option ToolParams)
    (input : String)
    (h : startsWithBrace (goTrimSpace input) = false
         ∨ unmarshal input = none
         ∨ ∃ p, unmarshal input = some p ∧ p.text = "") :
    resolveInput unmarshal input
      = ⟨goTrimSpace (goTrimQuotes input), "English", "Chinese"⟩ := by
  have hEn : ¬ ("English" = "") := by decide
  have hZh : ¬ ("Chinese" = "") := by decide
  unfold resolveInput
  rcases h with h | h | ⟨p, hp, hpt⟩
  · simp [h, hEn, hZh]
  · cases hb : startsWithBrace (goTrimSpace input) <;> simp [h, hb, hEn, hZh]
  · cases hb : startsWithBrace (goTrimSpace input) <;> simp [hp, hpt, hb, hEn, hZh]

/-- C10 witness: a JSON decode that succeeds with an empty text field but
non-empty language fields is discarded wholesale in favour of the trimmed raw
input and the default languages. -/
theorem resolveInput_fallback_witness :
    resolveInput (fun _ => some ⟨"", "French", "German"⟩) "\x7b\"a\":1\x7d"
      = ⟨"\x7b\"a\":1\x7d", "English", "Chinese"⟩ :=
  (resolveInput_fallback (fun _ => some ⟨"", "French", "German"⟩) "\x7b\"a\":1\x7d"
    (Or.inr (Or.inr ⟨⟨"", "French", "German"⟩, rfl, rfl⟩))).trans (by decide)

/-- A found-and-fresh lookup makes `Get` hit and leave the cache unchanged. -/
theorem Get_of_lookup_fresh (c : TranslationCache) (now : Nat) (t il ol : String)
    (e : cacheEntry) (he : lookupKey c (getCacheKey t il ol) = some e)
    (h : now - e.timestamp < cacheDuration) :
    c.Get now t il ol = ((e.result, true), c) := by
  simp [TranslationCache.Get, he, h]

/-- A hitting `Get` comes from a found-and-fresh entry and leaves the cache
unchanged. -/
theorem Get_hit_inv (c : TranslationCache) (now : Nat) (t il ol : String)
    (h : (c.Get now t il ol).1.2 = true) :
    ∃ e, lookupKey c (getCacheKey t il ol) = some e
      ∧ now - e.timestamp < cacheDuration
      ∧ c.Get now t il ol = ((e.result, true), c) := by
  cases hl : lookupKey c (getCacheKey t il ol) with
  | none => simp [TranslationCache.Get, hl] at h
  | some e =>
      by_cases hf : now - e.timestamp < cacheDuration
      · exact ⟨e, rfl, hf, Get_of_lookup_fresh c now t il ol e hl hf⟩
      · simp [TranslationCache.Get, hl, hf] at h

/-- A successful `Translate` implies the inputs were non-empty and leaves the
key mapped to an entry carrying the returned result. -/
theorem translate_ok_inv (llm : LLM) (now : Nat) (c : TranslationCache)
    (t il ol r : String) (c1 : TranslationCache) (tr : List TEvent)
    (h : Translate llm now c t il ol = ⟨Except.ok r, c1, tr⟩) :
    t ≠ "" ∧ il ≠ "" ∧ ol ≠ ""
    ∧ ∃ e, lookupKey c1 (getCacheKey t il ol) = some e ∧ e.result = r := by
  by_cases ht : t = ""
  · simp [Translate, ht] at h
  by_cases hil : il = ""
  · simp [Translate, ht, hil] at h
  by_cases hol : ol = ""
  · simp [Translate, ht, hil, hol] at h
  refine ⟨ht, hil, hol, ?_⟩
  simp only [Translate, if_neg ht, if_neg hil, if_neg hol] at h
  by_cases hg : (c.Get now t il ol).1.2 = true
  · obtain ⟨e, he, hf, hget⟩ := Get_hit_inv c now t il ol hg
    rw [if_pos hg] at h
    obtain ⟨h1, h2, -⟩ := TOut.mk.injEq .. ▸ h
    refine ⟨e, ?_, ?_⟩
    · rw [← h2, hget]; exact he
    · rw [hget] at h1
      exact Except.ok.inj h1
  · rw [if_neg hg] at h
    cases hllm : llm t il ol with
    | error e => rw [hllm] at h; simp at h
    | ok out =>
        rw [hllm] at h
        obtain ⟨h1, h2, -⟩ := TOut.mk.injEq .. ▸ h
        refine ⟨⟨out, now⟩, ?_, ?_⟩
        · rw [← h2, lookupKey_set, if_pos rfl]
        · exact Except.ok.inj h1

/-- C9: if a `Translate` for a triple succeeds with result r, a second
`Translate` for the same triple against the resulting cache — at any instant
at which the populated entry is within the TTL — succeeds with exactly r,
leaves the cache unchanged, and performs no external call: its whole trace is
the single cache read. -/
theorem translate_idempotent (llm : LLM) (now now' : Nat) (c : TranslationCache)
    (t il ol r : String) (c1 : TranslationCache) (tr : List TEvent)
    (h : Translate llm now c t il ol = ⟨Except.ok r, c1, tr⟩)
    (e : cacheEntry) (he : lookupKey c1 (getCacheKey t il ol) = some e)
    (httl : now' - e.timestamp < cacheDuration) :
    Translate llm now' c1 t il ol = ⟨Except.ok r, c1, [TEvent.cacheGet]⟩ := by
  obtain ⟨ht, hil, hol, e', he', hr⟩ := translate_ok_inv llm now c t il ol r c1 tr h
  have hee : e = e' := by rw [he] at he'; exact Option.some.inj he'
  have hget := Get_of_lookup_fresh c1 now' t il ol e he httl
  simp only [Translate, if_neg ht, if_neg hil, if_neg hol, hget]
  simp [hee, hr]

/-- C9 witness: a concrete first call against the empty cache populates the
cache; the immediate second call is served from it with no external call. -/
theorem translate_idempotent_witness :
    Translate (fun tx _ _ => Except.ok ("T" ++ tx)) 7
        ⟨[(getCacheKey "hi" "en" "zh", ⟨"Thi", 7⟩)]⟩ "hi" "en" "zh"
      = ⟨Except.ok "Thi", ⟨[(getCacheKey "hi" "en" "zh", ⟨"Thi", 7⟩)]⟩,
         [TEvent.cacheGet]⟩ :=
  translate_idempotent (fun tx _ _ => Except.ok ("T" ++ tx)) 7 7 ⟨[]⟩
    "hi" "en" "zh" "Thi" ⟨[(getCacheKey "hi" "en" "zh", ⟨"Thi", 7⟩)]⟩
    [TEvent.cacheGet, TEvent.llmCall, TEvent.cacheSet] (by rfl)
    ⟨"Thi", 7⟩ (by decide) (by decide)

/-- C1, counterexample: in the source the semaphore slot is acquired before
the cache lookup (translator.go lines 152-156), so a worker whose cache
lookup hits has nevertheless acquired a slot: with a fresh cached entry for
("hi","en","zh") the worker for item 0 hits the cache, yet its trace contains
the slot acquisition. -/
theorem batch_hit_worker_acquires_slot_counterexample :
    ((TranslationCache.Get ⟨[(getCacheKey "hi" "en" "zh", ⟨"你好", 0⟩)]⟩ 0
        "hi" "en" "zh").1.2 = true)
    ∧ Ev.acquire 0 ∈ (workerRun (fun _ _ _ => Except.error "down") 0 "en" "zh"
        ⟨[(getCacheKey "hi" "en" "zh", ⟨"你好", 0⟩)]⟩ 0 "hi").events := by decide

/-- C1 (amended): every batch worker first acquires a semaphore slot; a worker
whose cache lookup then hits writes the cached value to its result slot and
releases the slot, finishing without reporting an error, without its inner
translate call, and hence without competing further for the external call: its
whole trace is acquire, cache check (hit), result write, release. -/
theorem batch_hit_worker_trace (llm : LLM) (now : Nat) (il ol : String)
    (c : TranslationCache) (i : Nat) (t : String)
    (h : (c.Get now t il ol).1.2 = true) :
    workerRun llm now il ol c i t
      = ⟨(c.Get now t il ol).2, some (c.Get now t il ol).1.1, none,
         [Ev.acquire i, Ev.wGet i true, Ev.write i, Ev.release i]⟩ := by
  simp [workerRun, h]

/-- C1 witness: the amended theorem at a concrete fresh cache entry. -/
theorem batch_hit_worker_trace_witness :
    workerRun (fun _ _ _ => Except.error "down") 0 "en" "zh"
        ⟨[(getCacheKey "hi" "en" "zh", ⟨"你好", 3⟩)]⟩ 4 "hi"
      = ⟨⟨[(getCacheKey "hi" "en" "zh", ⟨"你好", 3⟩)]⟩, some "你好", none,
         [Ev.acquire 4, Ev.wGet 4 true, Ev.write 4, Ev.release 4]⟩ :=
  batch_hit_worker_trace (fun _ _ _ => Except.error "down") 0 "en" "zh"
    ⟨[(getCacheKey "hi" "en" "zh", ⟨"你好", 3⟩)]⟩ 4 "hi" (by decide)

/-- Unfolding `runChunks` on a chunk whose run reports an error. -/
theorem runChunks_cons_err (llm : LLM) (now : Nat) (il ol : String) (π : Sched)
    (k : Nat) (c : TranslationCache) (res : List String)
    (ch : List (Nat × String)) (rest : List (List (Nat × String)))
    (e : String) (es : List String)
    (h : (runItems llm now il ol c (π k ch)).errs = e :: es) :
    runChunks llm now il ol π k c res (ch :: rest)
      = ⟨Except.error ("batch translation error: " ++ e),
         (runItems llm now il ol c (π k ch)).cache,
         (runItems llm now il ol c (π k ch)).events⟩ := by
  simp only [runChunks, h]

/-- Unfolding `runChunks` on a chunk whose run reports no error. -/
theorem runChunks_cons_ok (llm : LLM) (now : Nat) (il ol : String) (π : Sched)
    (k : Nat) (c : TranslationCache) (res : List String)
    (ch : List (Nat × String)) (rest : List (List (Nat × String)))
    (h : (runItems llm now il ol c (π k ch)).errs = []) :
    runChunks llm now il ol π k c res (ch :: rest)
      = ⟨(runChunks llm now il ol π (k + 1) (runItems llm now il ol c (π k ch)).cache
            ((runItems llm now il ol c (π k ch)).writes.foldl
              (fun r p => r.set p.1 p.2) res) rest).result,
         (runChunks llm now il ol π (k + 1) (runItems llm now il ol c (π k ch)).cache
            ((runItems llm now il ol c (π k ch)).writes.foldl
              (fun r p => r.set p.1 p.2) res) rest).cache,
         (runItems llm now il ol c (π k ch)).events
           ++ (runChunks llm now il ol π (k + 1) (runItems llm now il ol c (π k ch)).cache
                ((runItems llm now il ol c (π k ch)).writes.foldl
                  (fun r p => r.set p.1 p.2) res) rest).events⟩ := by
  simp only [runChunks, h]

/-- Running a chunk list that starts with a successfully processed part
continues from the state that part produced. -/
theorem runChunks_append_ok (llm : LLM) (now : Nat) (il ol : String) (π : Sched)
    (cs ds : List (List (Nat × String))) :
    ∀ (k : Nat) (c : TranslationCache) (res res' : List String)
      (c' : TranslationCache) (ev' : List Ev),
      runChunks llm now il ol π k c res cs = ⟨Except.ok res', c', ev'⟩ →
      runChunks llm now il ol π k c res (cs ++ ds)
        = ⟨(runChunks llm now il ol π (k + cs.length) c' res' ds).result,
           (runChunks llm now il ol π (k + cs.length) c' res' ds).cache,
           ev' ++ (runChunks llm now il ol π (k + cs.length) c' res' ds).events⟩ := by
  induction cs with
  | nil =>
      intro k c res res' c' ev' h
      simp only [runChunks, BatchOut.mk.injEq] at h
      obtain ⟨h1, h2, h3⟩ := h
      obtain rfl := Except.ok.inj h1
      subst h2
      subst h3
      simp
  | cons ch rest ih =>
      intro k c res res' c' ev' h
      cases herr : (runItems llm now il ol c (π k ch)).errs with
      | cons e es =>
          rw [runChunks_cons_err llm now il ol π k c res ch rest e es herr] at h
          simp at h
      | nil =>
          rw [runChunks_cons_ok llm now il ol π k c res ch rest herr] at h
          simp only [BatchOut.mk.injEq] at h
          obtain ⟨h1, h2, h3⟩ := h
          rw [List.cons_append,
              runChunks_cons_ok llm now il ol π k c res ch (rest ++ ds) herr,
              ih (k + 1) (runItems llm now il ol c (π k ch)).cache
                ((runItems llm now il ol c (π k ch)).writes.foldl
                  (fun r p => r.set p.1 p.2) res) res' c'
                ((runChunks llm now il ol π (k + 1)
                    (runItems llm now il ol c (π k ch)).cache
                    ((runItems llm now il ol c (π k ch)).writes.foldl
                      (fun r p => r.set p.1 p.2) res) rest).events)
                (by rw [← h1, ← h2])]
          have hk : k + 1 + rest.length = k + (ch :: rest).length := by
            simp [List.length_cons]; omega
          rw [hk]
          simp [← h3, List.append_assoc]

/-- An error message reported by a worker names that worker's own index. -/
theorem workerRun_errMsg_shape (llm : LLM) (now : Nat) (il ol : String)
    (c : TranslationCache) (i : Nat) (t : String) (e : String)
    (h : (workerRun llm now il ol c i t).errMsg = some e) :
    ∃ msg, e = "failed to translate text at index " ++ toString i ++ ": " ++ msg := by
  by_cases hg : (c.Get now t il ol).1.2 = true
  · simp [workerRun, hg] at h
  · simp only [workerRun, if_neg hg] at h
    cases htr : (Translate llm now (c.Get now t il ol).2 t il ol).result with
    | error msg =>
        rw [htr] at h
        exact ⟨msg, (Option.some.inj h).symm⟩
    | ok r => rw [htr] at h; simp at h

/-- Every message in a chunk's error channel names the index of a failing item
of that chunk. -/
theorem runItems_errs_shape (llm : LLM) (now : Nat) (il ol : String) :
    ∀ (items : List (Nat × String)) (c : TranslationCache) (e : String),
      e ∈ (runItems llm now il ol c items).errs →
      ∃ p ∈ items, ∃ msg,
        e = "failed to translate text at index " ++ toString p.1 ++ ": " ++ msg := by
  intro items
  induction items with
  | nil => intro c e h; simp [runItems] at h
  | cons p rest ih =>
      intro c e h
      obtain ⟨i, t⟩ := p
      simp only [runItems] at h
      rw [List.mem_append] at h
      cases h with
      | inl hw =>
          cases hmsg : (workerRun llm now il ol c i t).errMsg with
          | none => rw [hmsg] at hw; simp at hw
          | some e2 =>
              rw [hmsg] at hw
              simp only [List.mem_singleton] at hw
              obtain ⟨msg, hm⟩ := workerRun_errMsg_shape llm now il ol c i t e2 hmsg
              exact ⟨(i, t), List.mem_cons_self _ _, msg, by rw [hw]; exact hm⟩
      | inr hr =>
          obtain ⟨q, hq, msg, hm⟩ :=
            ih (workerRun llm now il ol c i t).cache e hr
          exact ⟨q, List.mem_cons_of_mem _ hq, msg, hm⟩

/-- C2: whenever the chunks before some chunk ch all complete without error
and an item of ch fails, `TranslateBatch` returns the error outcome — never a
partial result list — whose message wraps the first reported failure, which
names the original index of a failing item of ch; and the event trace ends
with ch's events, so no chunk after the failing one is scheduled. -/
theorem translateBatch_abort (llm : LLM) (now : Nat) (il ol : String)
    (c : TranslationCache) (texts : List String)
    (pre post : List (List (Nat × String))) (ch : List (Nat × String))
    (hsplit : chunksOf texts.enum = pre ++ ch :: post)
    (c1 : TranslationCache) (res1 : List String) (ev1 : List Ev)
    (hpre : runChunks llm now il ol inOrder 0 c (List.replicate texts.length "") pre
              = ⟨Except.ok res1, c1, ev1⟩)
    (e : String) (es : List String)
    (herr : (runItems llm now il ol c1 ch).errs = e :: es) :
    TranslateBatch llm now c texts il ol
      = ⟨Except.error ("batch translation error: " ++ e),
         (runItems llm now il ol c1 ch).cache,
         ev1 ++ (runItems llm now il ol c1 ch).events⟩
    ∧ ∃ p ∈ ch, ∃ msg,
        e = "failed to translate text at index " ++ toString p.1 ++ ": " ++ msg := by
  have hne : texts ≠ [] := by
    intro hnil
    subst hnil
    simp [List.enum_nil, chunksOf] at hsplit
  have hinch : (runItems llm now il ol c1 (inOrder (0 + pre.length) ch)).errs
      = e :: es := herr
  constructor
  · rw [TranslateBatch, TranslateBatchWith, if_neg hne, hsplit,
        runChunks_append_ok llm now il ol inOrder pre (ch :: post) 0 c
          (List.replicate texts.length "") res1 c1 ev1 hpre,
        runChunks_cons_err llm now il ol inOrder (0 + pre.length) c1 res1 ch post
          e es hinch]
    rfl
  · have hmem : e ∈ (runItems llm now il ol c1 ch).errs := by
      rw [herr]; exact List.mem_cons_self _ _
    exact runItems_errs_shape llm now il ol ch c1 e hmem

/-- C2 witness: four texts with chunk size 3 where the fourth (index 3) fails:
the first chunk succeeds, yet the batch returns the wrapped error naming
index 3. -/
theorem translateBatch_abort_witness :
    (TranslateBatch llmFail 0 ⟨[]⟩ ["a", "b", "c", "d"] "en" "zh").result
      = Except.error
          "batch translation error: failed to translate text at index 3: translation failed: boom" := by
  have h := translateBatch_abort llmFail 0 "en" "zh" ⟨[]⟩ ["a", "b", "c", "d"]
    [[(0, "a"), (1, "b"), (2, "c")]] [] [(3, "d")] (by decide) _ _ _ rfl
    "failed to translate text at index 3: translation failed: boom" [] (by rfl)
  rw [h.1]
  rfl

/-- For a fixed language pair, the cache key determines the text. -/
theorem getCacheKey_text_inj (t t' il ol : String)
    (h : getCacheKey t il ol = getCacheKey t' il ol) : t = t' := by
  have hd : t.data ++ ':' :: (il.data ++ ':' :: ol.data)
      = t'.data ++ ':' :: (il.data ++ ':' :: ol.data) := by
    rw [← getCacheKey_data, ← getCacheKey_data, h]
  exact String.ext (List.append_inj' hd rfl).1

/-- `Get` returns either the unchanged cache or the cache with its key
erased. -/
theorem Get_cache_cases (c : TranslationCache) (now : Nat) (t il ol : String) :
    (c.Get now t il ol).2 = c
    ∨ (c.Get now t il ol).2 = eraseKey c (getCacheKey t il ol) := by
  simp only [TranslationCache.Get]
  split
  · split
    · exact Or.inl rfl
    · exact Or.inr rfl
  · exact Or.inl rfl

/-- Erasing a key preserves cache-oracle agreement. -/
theorem consistent_erase (llm : LLM) (il ol : String) (c : TranslationCache)
    (k : String) (hc : consistent llm il ol c) :
    consistent llm il ol (eraseKey c k) := by
  intro t e he
  rw [lookupKey_erase] at he
  by_cases hk : getCacheKey t il ol = k
  · rw [if_pos hk] at he; exact absurd he (by simp)
  · rw [if_neg hk] at he; exact hc t e he

/-- Storing the oracle's answer preserves cache-oracle agreement. -/
theorem consistent_set (llm : LLM) (il ol : String) (c : TranslationCache)
    (now : Nat) (t v : String) (hc : consistent llm il ol c)
    (hv : llm t il ol = Except.ok v) :
    consistent llm il ol (c.Set now t il ol v) := by
  intro t' e he
  rw [lookupKey_set] at he
  by_cases hk : getCacheKey t' il ol = getCacheKey t il ol
  · rw [if_pos hk] at he
    obtain rfl := Option.some.inj he
    rw [getCacheKey_text_inj t' t il ol hk]
    exact hv
  · rw [if_neg hk] at he
    exact hc t' e he

/-- `Translate` preserves cache-oracle agreement, and its successful results
are the oracle's answers. -/
theorem translate_preserves (llm : LLM) (now : Nat) (c : TranslationCache)
    (t il ol : String) (hc : consistent llm il ol c) :
    consistent llm il ol (Translate llm now c t il ol).cache
    ∧ ∀ r, (Translate llm now c t il ol).result = Except.ok r →
        llm t il ol = Except.ok r := by
  by_cases ht : t = ""
  · simp only [Translate, if_pos ht]
    exact ⟨hc, fun r hr => by simp at hr⟩
  by_cases hil : il = ""
  · simp only [Translate, if_neg ht, if_pos hil]
    exact ⟨hc, fun r hr => by simp at hr⟩
  by_cases hol : ol = ""
  · simp only [Translate, if_neg ht, if_neg hil, if_pos hol]
    exact ⟨hc, fun r hr => by simp at hr⟩
  have hg2 : consistent llm il ol (c.Get now t il ol).2 := by
    cases Get_cache_cases c now t il ol with
    | inl h => rw [h]; exact hc
    | inr h => rw [h]; exact consistent_erase llm il ol c _ hc
  simp only [Translate, if_neg ht, if_neg hil, if_neg hol]
  by_cases hg : (c.Get now t il ol).1.2 = true
  · obtain ⟨e, he, hf, hget⟩ := Get_hit_inv c now t il ol hg
    simp only [if_pos hg]
    refine ⟨hg2, fun r hr => ?_⟩
    have : (c.Get now t il ol).1.1 = r := Except.ok.inj hr
    rw [← this, hget]
    exact hc t e he
  · simp only [if_neg hg]
    cases hllm : llm t il ol with
    | error msg => exact ⟨hg2, fun r hr => by simp at hr⟩
    | ok out =>
        refine ⟨consistent_set llm il ol _ now t out hg2 hllm, fun r hr => ?_⟩
        exact hr

/-- A batch worker preserves cache-oracle agreement, and when the worker
reports no error it has written the oracle's answer for its text. -/
theorem workerRun_sound (llm : LLM) (now : Nat) (il ol : String)
    (c : TranslationCache) (i : Nat) (t : String) (hc : consistent llm il ol c) :
    consistent llm il ol (workerRun llm now il ol c i t).cache
    ∧ ((workerRun llm now il ol c i t).errMsg = none →
        ∃ v, (workerRun llm now il ol c i t).write = some v
          ∧ llm t il ol = Except.ok v) := by
  have hg2 : consistent llm il ol (c.Get now t il ol).2 := by
    cases Get_cache_cases c now t il ol with
    | inl h => rw [h]; exact hc
    | inr h => rw [h]; exact consistent_erase llm il ol c _ hc
  by_cases hg : (c.Get now t il ol).1.2 = true
  · obtain ⟨e, he, hf, hget⟩ := Get_hit_inv c now t il ol hg
    simp only [workerRun, if_pos hg]
    exact ⟨hg2, fun _ => ⟨(c.Get now t il ol).1.1, rfl, by rw [hget]; exact hc t e he⟩⟩
  · obtain ⟨hpc, hpr⟩ :=
      translate_preserves llm now (c.Get now t il ol).2 t il ol hg2
    simp only [workerRun, if_neg hg]
    cases htr : (Translate llm now (c.Get now t il ol).2 t il ol).result with
    | error msg => exact ⟨hpc, fun hnone => by simp at hnone⟩
    | ok r => exact ⟨hpc, fun _ => ⟨r, rfl, hpr r htr⟩⟩

theorem forall₂_fst_map {llm : LLM} {il ol : String} :
    ∀ {ws items : List (Nat × String)},
      List.Forall₂ (WriteRel llm il ol) ws items →
      ws.map Prod.fst = items.map Prod.fst := by
  intro ws items h
  induction h with
  | nil => rfl
  | cons hr _ ih => simp [ih, hr.1]

theorem forall₂_mem_right {llm : LLM} {il ol : String} :
    ∀ {ws items : List (Nat × String)},
      List.Forall₂ (WriteRel llm il ol) ws items →
      ∀ p ∈ items, ∃ q ∈ ws, WriteRel llm il ol q p := by
  intro ws items h
  induction h with
  | nil => intro p hp; simp at hp
  | cons hr _ ih =>
      intro p hp
      rcases List.mem_cons.mp hp with hph | hp'
      · exact ⟨_, List.mem_cons_self _ _, hph ▸ hr⟩
      · obtain ⟨q, hq, hrel⟩ := ih p hp'
        exact ⟨q, List.mem_cons_of_mem _ hq, hrel⟩

/-- A chunk run preserves cache-oracle agreement, and when its error channel
stays empty its writes correspond one-to-one, in order, to its items. -/
theorem runItems_sound (llm : LLM) (now : Nat) (il ol : String) :
    ∀ (items : List (Nat × String)) (c : TranslationCache),
      consistent llm il ol c →
      consistent llm il ol (runItems llm now il ol c items).cache
      ∧ ((runItems llm now il ol c items).errs = [] →
          List.Forall₂ (WriteRel llm il ol)
            (runItems llm now il ol c items).writes items) := by
  intro items
  induction items with
  | nil => exact fun c hc => ⟨hc, fun _ => List.Forall₂.nil⟩
  | cons p rest ih =>
      intro c hc
      obtain ⟨i, t⟩ := p
      obtain ⟨hwc, hwr⟩ := workerRun_sound llm now il ol c i t hc
      obtain ⟨hrc, hrw⟩ := ih (workerRun llm now il ol c i t).cache hwc
      refine ⟨hrc, fun herr => ?_⟩
      simp only [runItems] at herr ⊢
      cases hmsg : (workerRun llm now il ol c i t).errMsg with
      | some e => rw [hmsg] at herr; simp at herr
      | none =>
          rw [hmsg] at herr
          simp only [List.nil_append] at herr
          obtain ⟨v, hv, hllm⟩ := hwr hmsg
          rw [hv]
          simp only [List.singleton_append]
          exact List.Forall₂.cons ⟨rfl, hllm⟩ (hrw herr)

theorem foldl_set_length :
    ∀ (ws : List (Nat × String)) (res : List String),
      (ws.foldl (fun r p => r.set p.1 p.2) res).length = res.length := by
  intro ws
  induction ws with
  | nil => intro res; rfl
  | cons q rest ih => intro res; rw [List.foldl_cons, ih, List.length_set]

theorem foldl_set_untouched :
    ∀ (ws : List (Nat × String)) (res : List String) (i : Nat),
      i ∉ ws.map Prod.fst →
      (ws.foldl (fun r p => r.set p.1 p.2) res)[i]? = res[i]? := by
  intro ws
  induction ws with
  | nil => intro res i _; rfl
  | cons q rest ih =>
      intro res i h
      rw [List.map_cons, List.mem_cons] at h
      push_neg at h
      rw [List.foldl_cons, ih _ i h.2, List.getElem?_set_ne (Ne.symm h.1)]

theorem foldl_set_touched :
    ∀ (ws : List (Nat × String)) (res : List String) (i : Nat) (v : String),
      (ws.map Prod.fst).Nodup → (i, v) ∈ ws → i < res.length →
      (ws.foldl (fun r p => r.set p.1 p.2) res)[i]? = some v := by
  intro ws
  induction ws with
  | nil => intro res i v _ h _; simp at h
  | cons q rest ih =>
      intro res i v hnd hmem hlt
      rw [List.map_cons, List.nodup_cons] at hnd
      rw [List.foldl_cons]
      rcases List.mem_cons.mp hmem with hph | hmem'
      · obtain rfl := hph.symm
        rw [foldl_set_untouched rest _ i (by simpa using hnd.1)]
        exact List.getElem?_set_eq_of_lt v hlt
      · exact ih _ i v hnd.2 hmem' (by rw [List.length_set]; exact hlt)

/-- The chunks concatenate back to the item list. -/
theorem chunksOf_flatten : ∀ l, (chunksOf l).flatten = l
  | [] => rfl
  | [_] => rfl
  | [_, _] => rfl
  | a :: b :: c :: rest => by
      simp only [chunksOf, List.flatten_cons, chunksOf_flatten rest]
      rfl

/-- Soundness of the chunk loop under any per-chunk completion order: if it
succeeds, every processed item's slot holds the oracle's answer for that
item's text and untouched slots are unchanged. -/
theorem runChunks_sound (llm : LLM) (now : Nat) (il ol : String) (π : Sched)
    (hπ : ∀ k l, List.Perm (π k l) l) :
    ∀ (chs : List (List (Nat × String))) (k : Nat) (c : TranslationCache)
      (res : List String),
      consistent llm il ol c →
      (chs.flatten.map Prod.fst).Nodup →
      (∀ p ∈ chs.flatten, p.1 < res.length) →
      ∀ out c' ev,
        runChunks llm now il ol π k c res chs = ⟨Except.ok out, c', ev⟩ →
        out.length = res.length
        ∧ (∀ p ∈ chs.flatten, ∃ v, out[p.1]? = some v ∧ llm p.2 il ol = Except.ok v)
        ∧ (∀ i, i ∉ chs.flatten.map Prod.fst → out[i]? = res[i]?) := by
  intro chs
  induction chs with
  | nil =>
      intro k c res _ _ _ out c' ev h
      simp only [runChunks, BatchOut.mk.injEq] at h
      obtain ⟨h1, _, _⟩ := h
      obtain rfl := Except.ok.inj h1
      exact ⟨rfl, by simp, fun i _ => rfl⟩
  | cons ch rest ih =>
      intro k c res hc hnd hbound out c' ev h
      cases herr : (runItems llm now il ol c (π k ch)).errs with
      | cons e es =>
          rw [runChunks_cons_err llm now il ol π k c res ch rest e es herr] at h
          simp at h
      | nil =>
          rw [runChunks_cons_ok llm now il ol π k c res ch rest herr] at h
          simp only [BatchOut.mk.injEq] at h
          obtain ⟨h1, h2, h3⟩ := h
          obtain ⟨hoc, how⟩ := runItems_sound llm now il ol (π k ch) c hc
          have hfa : List.Forall₂ (WriteRel llm il ol)
              (runItems llm now il ol c (π k ch)).writes (π k ch) := how herr
          have hwmap : (runItems llm now il ol c (π k ch)).writes.map Prod.fst
              = (π k ch).map Prod.fst := forall₂_fst_map hfa
          have hpermf : ((π k ch).map Prod.fst).Perm (ch.map Prod.fst) :=
            (hπ k ch).map Prod.fst
          have hnd' : (ch.map Prod.fst ++ rest.flatten.map Prod.fst).Nodup := by
            rw [← List.map_append]
            simpa [List.flatten_cons] using hnd
          obtain ⟨hndc, hndr, hdisj⟩ := List.nodup_append.mp hnd'
          have hlen1 : ((runItems llm now il ol c (π k ch)).writes.foldl
              (fun r p => r.set p.1 p.2) res).length = res.length :=
            foldl_set_length _ res
          have hboundr : ∀ p ∈ rest.flatten,
              p.1 < ((runItems llm now il ol c (π k ch)).writes.foldl
                (fun r p => r.set p.1 p.2) res).length := by
            intro p hp
            rw [hlen1]
            exact hbound p (by simp [List.flatten_cons, hp])
          obtain ⟨ihlen, ihmem, ihout⟩ := ih (k + 1)
            (runItems llm now il ol c (π k ch)).cache
            ((runItems llm now il ol c (π k ch)).writes.foldl
              (fun r p => r.set p.1 p.2) res)
            hoc hndr hboundr out c'
            ((runChunks llm now il ol π (k + 1)
              (runItems llm now il ol c (π k ch)).cache
              ((runItems llm now il ol c (π k ch)).writes.foldl
                (fun r p => r.set p.1 p.2) res) rest).events)
            (by rw [← h1, ← h2])
          refine ⟨by rw [ihlen, hlen1], ?_, ?_⟩
          · intro p hp
            rw [List.flatten_cons, List.mem_append] at hp
            cases hp with
            | inr hpr => exact ihmem p hpr
            | inl hpc =>
                have hpπ : p ∈ π k ch := (hπ k ch).mem_iff.mpr hpc
                obtain ⟨q, hqw, hqrel⟩ := forall₂_mem_right hfa p hpπ
                have hq2 : (p.1, q.2) ∈ (runItems llm now il ol c (π k ch)).writes := by
                  rw [← hqrel.1]
                  simpa using hqw
                have hndw : ((runItems llm now il ol c (π k ch)).writes.map
                    Prod.fst).Nodup := by
                  rw [hwmap]
                  exact hpermf.nodup_iff.mpr hndc
                have hplt : p.1 < res.length :=
                  hbound p (by simp [List.flatten_cons, hpc])
                have hres1 : ((runItems llm now il ol c (π k ch)).writes.foldl
                    (fun r p => r.set p.1 p.2) res)[p.1]? = some q.2 :=
                  foldl_set_touched _ res p.1 q.2 hndw hq2 hplt
                have hnotr : p.1 ∉ rest.flatten.map Prod.fst :=
                  hdisj (List.mem_map_of_mem Prod.fst hpc)
                refine ⟨q.2, ?_, hqrel.2⟩
                rw [ihout p.1 hnotr, hres1]
          · intro i hi
            have hi' : i ∉ ch.map Prod.fst ∧ i ∉ rest.flatten.map Prod.fst := by
              constructor <;> intro hmem <;> apply hi
              · rw [List.flatten_cons, List.map_append, List.mem_append]
                exact Or.inl hmem
              · rw [List.flatten_cons, List.map_append, List.mem_append]
                exact Or.inr hmem
            rw [ihout i hi'.2]
            apply foldl_set_untouched
            rw [hwmap]
            intro hm
            exact hi'.1 (hpermf.mem_iff.mp hm)

/-- C3: for every per-chunk worker completion order, every oracle, and every
initial cache that agrees with the oracle, a successful `TranslateBatch` run
returns a list of the same length as the input whose element at index i is
the translation of the input text at index i — slots are assigned by the
items' original indices, independent of completion order. -/
theorem translateBatch_ordering (π : Sched) (hπ : ∀ k l, List.Perm (π k l) l)
    (llm : LLM) (now : Nat) (c : TranslationCache) (texts : List String)
    (il ol : String) (hc : consistent llm il ol c)
    (out : List String) (c' : TranslationCache) (ev : List Ev)
    (hok : TranslateBatchWith π llm now c texts il ol = ⟨Except.ok out, c', ev⟩) :
    out.length = texts.length
    ∧ ∀ i, i < texts.length →
        ∃ v, out[i]? = some v ∧ llm (texts.getD i "") il ol = Except.ok v := by
  by_cases hne : texts = []
  · subst hne
    simp [TranslateBatchWith] at hok
  rw [TranslateBatchWith, if_neg hne] at hok
  have hnd : ((chunksOf texts.enum).flatten.map Prod.fst).Nodup := by
    rw [chunksOf_flatten]
    exact List.nodup_enum_map_fst texts
  have hbound : ∀ p ∈ (chunksOf texts.enum).flatten,
      p.1 < (List.replicate texts.length "").length := by
    intro p hp
    rw [chunksOf_flatten] at hp
    rw [List.length_replicate]
    exact (List.getElem?_eq_some.mp (List.mem_enum_iff_getElem?.mp hp)).1
  obtain ⟨hlen, hmem, -⟩ := runChunks_sound llm now il ol π hπ
    (chunksOf texts.enum) 0 c (List.replicate texts.length "") hc hnd hbound
    out c' ev hok
  refine ⟨by rw [hlen, List.length_replicate], fun i hi => ?_⟩
  have hpin : (i, texts.getD i "") ∈ (chunksOf texts.enum).flatten := by
    rw [chunksOf_flatten]
    apply List.mem_enum_iff_getElem?.mpr
    rw [List.getElem?_eq_getElem hi]
    rw [List.getD_eq_getElem texts "" hi]
  exact hmem (i, texts.getD i "") hpin

/-- C3 witness: four texts under the reversed completion order still produce
the in-order result list; slot 2 holds the oracle answer for input 2. -/
theorem translateBatch_ordering_witness :
    (["Ta", "Tb", "Tc", "Td"] : List String).length
        = (["a", "b", "c", "d"] : List String).length
    ∧ (["Ta", "Tb", "Tc", "Td"] : List String)[2]? = some "Tc"
    ∧ llmOK "c" "en" "zh" = Except.ok "Tc" := by
  obtain ⟨hlen, hmem⟩ := translateBatch_ordering (fun _ l => l.reverse)
    (fun _ l => l.reverse_perm) llmOK 0 ⟨[]⟩ ["a", "b", "c", "d"] "en" "zh"
    (fun t e he => by simp [lookupKey, lookupL] at he)
    ["Ta", "Tb", "Tc", "Td"] _ _ rfl
  obtain ⟨v, hv, hl⟩ := hmem 2 (by decide)
  have hcomp : (["Ta", "Tb", "Tc", "Td"] : List String)[2]? = some "Tc" := by rfl
  obtain rfl := Option.some.inj (hv.symm.trans hcomp)
  exact ⟨hlen, hcomp, hl⟩
